import Mathlib

/-!
Verification development for the `indexed-sublevel` library
(`src/index.ts`, class `IdexedSubLevel`).

The library layers secondary indexes over an ordered key-value store
(`abstract-level`).  Records live in a primary namespace keyed by a primary
key; every registered index owns a dedicated namespace holding composite
keys `[indexValue, primaryKey]` (with empty payload) encoded with
`charwise-compact`, which orders composite keys lexicographically,
component-wise, with numbers sorting before strings.

The embedding below models:
  * `CW` — charwise-encodable component values (numbers and strings) with
    the encoder's order `cwLt`;
  * namespaces — the primary namespace as an association list
    `List (CW × V)`, each index namespace as a list of composite-key pairs
    `List (CW × CW)` kept in ascending order (the store iterates keys in
    ascending order);
  * `put`, `del`, `query` — translated line by line from
    `IdexedSubLevel.put`, `IdexedSubLevel.del`, `IdexedSubLevel.query`,
    with the atomic batch made explicit as a list of staged operations
    (`Op`) applied by `applyOps`.
-/

namespace IndexedSublevel

/-- Charwise-encodable component values appearing inside composite index
keys: numbers and strings (the shapes exercised by the spec's scenarios).
`charwise-compact` encodes numbers so that every number sorts before every
string. -/
inductive CW where
  | num : Int → CW
  | str : String → CW
  deriving DecidableEq, Repr

/-- Lexicographic order on character lists, comparing characters by code
point — the order a charwise-style string encoding preserves. -/
def strLt : List Char → List Char → Bool
  | [], [] => false
  | [], _ :: _ => true
  | _ :: _, [] => false
  | c :: cs, d :: ds => decide (c.toNat < d.toNat) || (decide (c = d) && strLt cs ds)

/-- Order on component values as `charwise-compact` encodes them: numbers
by numeric value, strings lexicographically, and every number before every
string. -/
def cwLt : CW → CW → Bool
  | .num a, .num b => decide (a < b)
  | .num _, .str _ => true
  | .str _, .num _ => false
  | .str a, .str b => strLt a.data b.data

/-- Lexicographic order on encoded composite keys (arrays of components),
as the underlying store compares them: shorter arrays that are a proper
front of a longer one sort first. -/
def ltCK : List CW → List CW → Bool
  | [], [] => false
  | [], _ :: _ => true
  | _ :: _, [] => false
  | a :: as, b :: bs => cwLt a b || (decide (a = b) && ltCK as bs)

/-- Upper-bound constant used by `IdexedSubLevel.query`: the code writes
the fixed string `"￿"` as "a high-value constant". -/
def sentinel : CW := .str "￿"

/-- Range test of `IdexedSubLevel.query`'s iterator over an index
namespace: composite key `[e.1, e.2]` is inside the half-open range
`gt [value]`, `lt [value, sentinel]`. -/
def inRange (value : CW) (e : CW × CW) : Bool :=
  ltCK [value] [e.1, e.2] && ltCK [e.1, e.2] [value, sentinel]

/-- Order on index-namespace entries `(indexValue, primaryKey)` induced by
the composite-key order: by index value first, then by primary key. -/
def pairLt (a b : CW × CW) : Bool :=
  cwLt a.1 b.1 || (decide (a.1 = b.1) && cwLt a.2 b.2)

/-- Insertion into an index namespace: the store keeps keys in ascending
order and a put of an existing key overwrites it (entries carry the empty
payload, so overwriting is the identity). -/
def insertEntry : List (CW × CW) → (CW × CW) → List (CW × CW)
  | [], e => [e]
  | x :: xs, e =>
    if pairLt e x = true then e :: x :: xs
    else if e = x then x :: xs
    else x :: insertEntry xs e

/-- Deletion of a composite key from an index namespace. -/
def removeEntry (ns : List (CW × CW)) (e : CW × CW) : List (CW × CW) :=
  ns.filter (fun x => decide (x ≠ e))

/-- Strict ascending order of an index namespace, the shape in which the
store hands entries to the iterator. -/
def SortedNS (ns : List (CW × CW)) : Prop :=
  List.Pairwise (fun a b => pairLt a b = true) ns

/-- Lookup in the primary namespace (`this.get(key)` / one slot of
`getMany`): the value stored at `k`, or `none` when the store reports the
key as absent (`undefined`). -/
def mainLookup {V : Type} (m : List (CW × V)) (k : CW) : Option V :=
  match m with
  | [] => none
  | (k', v') :: rest => if k' = k then some v' else mainLookup rest k

/-- Deletion of a primary key (`batch.del(key, { sublevel: this })`). -/
def mainErase {V : Type} (m : List (CW × V)) (k : CW) : List (CW × V) :=
  m.filter (fun p => decide (p.1 ≠ k))

/-- Upsert of a primary record (`batch.put(key, value, { sublevel: this })`):
the store replaces any previous value stored at `k`. -/
def mainInsert {V : Type} (m : List (CW × V)) (k : CW) (v : V) : List (CW × V) :=
  (k, v) :: mainErase m k

/-- State of the collection: the registry built by the constructor (index
name paired with its getter; `undefined` getter results appear as `none`),
the primary namespace, and one namespace of composite-key entries per
index name.  Namespace identifiers are derived injectively from index
names (`"idx_" + prefix + "_" + name`), so namespaces are keyed here by
index name directly. -/
structure DB (V : Type) where
  registry : List (String × (V → Option CW))
  main : List (CW × V)
  idx : String → List (CW × CW)

/-- One operation staged in a chained batch (`batch.put` / `batch.del`,
routed either to the main sublevel or to one index sublevel). -/
inductive Op (V : Type) where
  | putMain : CW → V → Op V
  | delMain : CW → Op V
  | putIdx : String → CW × CW → Op V
  | delIdx : String → CW × CW → Op V

/-- Distinguishes staged puts from staged deletes. -/
def Op.isPut {V : Type} : Op V → Bool
  | .putMain _ _ => true
  | .putIdx _ _ => true
  | .delMain _ => false
  | .delIdx _ _ => false

/-- Effect of one staged operation on the committed state. -/
def applyOp {V : Type} (db : DB V) : Op V → DB V
  | .putMain k v => { db with main := mainInsert db.main k v }
  | .delMain k => { db with main := mainErase db.main k }
  | .putIdx n e =>
    { db with idx := fun m => if m = n then insertEntry (db.idx m) e else db.idx m }
  | .delIdx n e =>
    { db with idx := fun m => if m = n then removeEntry (db.idx m) e else db.idx m }

/-- Atomic commit of a chained batch (`batch.write()`): all staged
operations become visible together. -/
def applyOps {V : Type} (db : DB V) (ops : List (Op V)) : DB V :=
  ops.foldl applyOp db

/-- Operations staged by `IdexedSubLevel.put`: the primary put first, then,
for each registered index whose getter yields a defined value on the new
record, a put of the composite key `[indexValue, key]` (empty payload)
into that index's namespace.  No old value is read and no delete is ever
staged. -/
def putOps {V : Type} (regs : List (String × (V → Option CW))) (k : CW) (v : V) :
    List (Op V) :=
  Op.putMain k v ::
    regs.filterMap (fun p => (p.2 v).map (fun iv => Op.putIdx p.1 (iv, k)))

/-- `IdexedSubLevel.put(key, value)`: stage the batch and commit it. -/
def put {V : Type} (db : DB V) (k : CW) (v : V) : DB V :=
  applyOps db (putOps db.registry k v)

/-- Operations staged by `IdexedSubLevel.del` once the old value is known:
the primary delete first, then, for each registered index whose getter
yields a defined value on the old record, a delete of the composite key
`[indexValue, key]` from that index's namespace. -/
def delOps {V : Type} (regs : List (String × (V → Option CW))) (k : CW) (oldValue : V) :
    List (Op V) :=
  Op.delMain k ::
    regs.filterMap (fun p => (p.2 oldValue).map (fun iv => Op.delIdx p.1 (iv, k)))

/-- `IdexedSubLevel.del(key)`: read the current value; when the record does
not exist, return with no effect; otherwise stage the batch and commit. -/
def del {V : Type} (db : DB V) (k : CW) : DB V :=
  match mainLookup db.main k with
  | none => db
  | some oldValue => applyOps db (delOps db.registry k oldValue)

/-- Registry lookup performed by `IdexedSubLevel.query`
(`this.indexes[indexName]`). -/
def findIndex {V : Type} (regs : List (String × (V → Option CW))) (name : String) :
    Option (V → Option CW) :=
  match regs with
  | [] => none
  | p :: rest => if p.1 = name then some p.2 else findIndex rest name

/-- Failure surfaced by `IdexedSubLevel.query` when the index name is not
registered (`Index "…" not defined`). -/
inductive QueryError where
  | indexNotFound : String → QueryError
  deriving DecidableEq, Repr

/-- `IdexedSubLevel.query(indexName, value)`: fail when the name is not in
the registry; otherwise scan the index namespace over the half-open range
`gt [value]`, `lt [value, sentinel]` in ascending order, collect the
second component of every composite key found, bulk-fetch those primary
keys with `getMany`, and drop the slots whose record is absent.  The
function is read-only: it returns a result and never touches the state. -/
def query {V : Type} (db : DB V) (name : String) (value : CW) :
    Except QueryError (List V) :=
  match findIndex db.registry name with
  | none => .error (.indexNotFound name)
  | some _ =>
    let keys := ((db.idx name).filter (fun e => inRange value e)).map (fun e => e.2)
    .ok (keys.filterMap (fun k => mainLookup db.main k))

/-- State right after the constructor ran: registry built from the
definitions map, primary namespace empty, every index namespace empty. -/
def initDB {V : Type} (regs : List (String × (V → Option CW))) : DB V :=
  { registry := regs, main := [], idx := fun _ => [] }

/-- States reachable from construction through completed `put` and `del`
calls. -/
inductive Reachable {V : Type} (regs : List (String × (V → Option CW))) : DB V → Prop
  | init : Reachable regs (initDB regs)
  | put {db : DB V} (k : CW) (v : V) : Reachable regs db → Reachable regs (put db k v)
  | del {db : DB V} (k : CW) : Reachable regs db → Reachable regs (del db k)

/-- Collection invariant claimed by the spec (§3): for every present
primary key `k` with value `v` and every registered index, the index
namespace holds exactly the entry `(getter v, k)` for `k` when the getter
is defined on `v`, and no entry referencing `k` otherwise. -/
def C1Invariant {V : Type} (db : DB V) : Prop :=
  ∀ k v, mainLookup db.main k = some v →
    ∀ p ∈ db.registry,
      match p.2 v with
      | some iv => (db.idx p.1).filter (fun e => decide (e.2 = k)) = [(iv, k)]
      | none => (db.idx p.1).filter (fun e => decide (e.2 = k)) = []

/-- State of a collection whose registry holds user getters that may
throw; a thrown failure is carried as an `Except.error` message. -/
structure DBE (V : Type) where
  registryE : List (String × (V → Except String (Option CW)))
  main : List (CW × V)
  idx : String → List (CW × CW)

/-- Index-staging loop of `IdexedSubLevel.put` with throwing getters: the
loop walks the registry in order, calls each getter on the new record, and
stages a composite-key put for each defined result; the first getter that
throws aborts the call, and `batch.write()` never runs. -/
def stagePutE {V : Type} (regs : List (String × (V → Except String (Option CW))))
    (k : CW) (v : V) : Except String (List (Op V)) :=
  match regs with
  | [] => .ok []
  | p :: rest =>
    match p.2 v with
    | .error e => .error e
    | .ok none => stagePutE rest k v
    | .ok (some iv) => (stagePutE rest k v).map (fun ops => Op.putIdx p.1 (iv, k) :: ops)

/-- Commit of a staged batch against a `DBE` state: identical to
`applyOps`, which only reads and writes the namespaces. -/
def DBE.commit {V : Type} (db : DBE V) (ops : List (Op V)) : DBE V :=
  let committed := applyOps { registry := [], main := db.main, idx := db.idx } ops
  { db with main := committed.main, idx := committed.idx }

/-- `IdexedSubLevel.put` with throwing getters: stage the primary put and
the index puts; when a getter throws, the batch is discarded uncommitted
and the failure is surfaced, leaving the state untouched; otherwise commit
the whole batch atomically. -/
def putE {V : Type} (db : DBE V) (k : CW) (v : V) : Except String (DBE V) :=
  match stagePutE db.registryE k v with
  | .error e => .error e
  | .ok ops => .ok (db.commit (Op.putMain k v :: ops))

/-- Getter of the staleness scenario: indexes the record `1` under `"a"`
and every other record under `"b"`. -/
def gStale : Int → Option CW := fun n => some (.str (if n = 1 then "a" else "b"))

/-- Registry holding the single index `"i"` bound to `gStale`. -/
def regsStale : List (String × (Int → Option CW)) := [("i", gStale)]

/-- Store reached by `put("k", 1)` then `put("k", 2)` under `regsStale`:
the update changes the derived index value from `"a"` to `"b"`. -/
def dbStale : DB Int := put (put (initDB regsStale) (.str "k") 1) (.str "k") 2

/-- Getter indexing every record under the fixed index value `"a"`. -/
def gA : Int → Option CW := fun _ => some (.str "a")

/-- Registry holding the single index `"i"` bound to `gA`. -/
def regsA : List (String × (Int → Option CW)) := [("i", gA)]

/-- Store reached by `put("k2", 5)` then `put("k1", 5)` under `regsA`: two
distinct primary keys holding equal records with the same index value. -/
def dbDup : DB Int := put (put (initDB regsA) (.str "k2") 5) (.str "k1") 5

/-- Store reached by `put("￿", 7)` under `regsA`: the primary key is
the very string the query path uses as its upper-bound constant. -/
def dbHigh : DB Int := put (initDB regsA) (.str "￿") 7

/-- Throwing getter used by the abort scenario. -/
def gBoom : Int → Except String (Option CW) := fun _ => .error "boom"

/-- Freshly constructed state whose single index `"i"` has the throwing
getter `gBoom`. -/
def dbBoom : DBE Int := { registryE := [("i", gBoom)], main := [], idx := fun _ => [] }

/-- Getter of the prefix-safety scenario: indexes the record `1` under
`"a"` and every other record under `"ab"`. -/
def gPS : Int → Option CW := fun n => some (.str (if n = 1 then "a" else "ab"))

theorem strLt_irrefl (l : List Char) : strLt l l = false := by
  induction l with
  | nil => rfl
  | cons c cs ih => simp [strLt, ih]

theorem strLt_trans {a b c : List Char} (h₁ : strLt a b = true) (h₂ : strLt b c = true) :
    strLt a c = true := by
  induction a generalizing b c with
  | nil =>
    cases b with
    | nil => simp [strLt] at h₁
    | cons y ys =>
      cases c with
      | nil => simp [strLt] at h₂
      | cons z zs => rfl
  | cons x xs ih =>
    cases b with
    | nil => simp [strLt] at h₁
    | cons y ys =>
      cases c with
      | nil => simp [strLt] at h₂
      | cons z zs =>
        simp only [strLt, Bool.or_eq_true, Bool.and_eq_true, decide_eq_true_eq] at h₁ h₂ ⊢
        rcases h₁ with h₁ | ⟨rfl, h₁⟩
        · rcases h₂ with h₂ | ⟨rfl, h₂⟩
          · exact Or.inl (Nat.lt_trans h₁ h₂)
          · exact Or.inl h₁
        · rcases h₂ with h₂ | ⟨rfl, h₂⟩
          · exact Or.inl h₂
          · exact Or.inr ⟨rfl, ih h₁ h₂⟩

theorem strLt_conn {a b : List Char} (h₁ : strLt a b = false) (h₂ : strLt b a = false) :
    a = b := by
  induction a generalizing b with
  | nil =>
    cases b with
    | nil => rfl
    | cons y ys => simp [strLt] at h₁
  | cons x xs ih =>
    cases b with
    | nil => simp [strLt] at h₂
    | cons y ys =>
      simp only [strLt, Bool.or_eq_false_iff, Bool.and_eq_false_iff, decide_eq_false_iff_not] at h₁ h₂
      obtain ⟨hlt₁, h₁'⟩ := h₁
      obtain ⟨hlt₂, h₂'⟩ := h₂
      have hxy : x = y := by
        have hn : x.toNat = y.toNat := by
          rcases Nat.lt_or_ge x.toNat y.toNat with h | h
          · exact absurd h hlt₁
          · rcases Nat.lt_or_ge y.toNat x.toNat with h' | h'
            · exact absurd h' hlt₂
            · omega
        exact Char.eq_of_val_eq (UInt32.toNat.inj hn)
      subst hxy
      rcases h₁' with h₁' | h₁'
      · exact absurd rfl h₁'
      · rcases h₂' with h₂' | h₂'
        · exact absurd rfl h₂'
        · exact congrArg (x :: ·) (ih h₁' h₂')

theorem strLt_asymm {a b : List Char} (h : strLt a b = true) : strLt b a = false := by
  cases hba : strLt b a with
  | false => rfl
  | true => exact absurd (strLt_trans h hba) (by simp [strLt_irrefl])

theorem cwLt_irrefl (a : CW) : cwLt a a = false := by
  cases a with
  | num n => simp [cwLt]
  | str s => simp [cwLt, strLt_irrefl]

theorem cwLt_trans {a b c : CW} (h₁ : cwLt a b = true) (h₂ : cwLt b c = true) :
    cwLt a c = true := by
  cases a with
  | num x =>
    cases c with
    | num z =>
      cases b with
      | num y =>
        simp only [cwLt, decide_eq_true_eq] at h₁ h₂ ⊢
        omega
      | str _ => simp [cwLt] at h₂
    | str _ => simp [cwLt]
  | str x =>
    cases b with
    | num _ => simp [cwLt] at h₁
    | str y =>
      cases c with
      | num _ => simp [cwLt] at h₂
      | str z =>
        simp only [cwLt] at h₁ h₂ ⊢
        exact strLt_trans h₁ h₂

theorem cwLt_conn {a b : CW} (h₁ : cwLt a b = false) (h₂ : cwLt b a = false) : a = b := by
  cases a with
  | num x =>
    cases b with
    | num y =>
      simp only [cwLt, decide_eq_false_iff_not] at h₁ h₂
      have : x = y := by omega
      simp [this]
    | str _ => simp [cwLt] at h₁
  | str x =>
    cases b with
    | num _ => simp [cwLt] at h₂
    | str y =>
      simp only [cwLt] at h₁ h₂
      exact congrArg CW.str (String.ext (strLt_conn h₁ h₂))

theorem cwLt_asymm {a b : CW} (h : cwLt a b = true) : cwLt b a = false := by
  cases hba : cwLt b a with
  | false => rfl
  | true => exact absurd (cwLt_trans h hba) (by simp [cwLt_irrefl])

theorem cwLt_ne {a b : CW} (h : cwLt a b = true) : a ≠ b := by
  rintro rfl
  simp [cwLt_irrefl] at h

theorem inRange_iff (value : CW) (e : CW × CW) :
    inRange value e = true ↔ e.1 = value ∧ cwLt e.2 sentinel = true := by
  obtain ⟨a, b⟩ := e
  by_cases hav : a = value
  · subst hav
    simp [inRange, ltCK, cwLt_irrefl]
  · have hne : (a = value) = False := by simp [hav]
    have hne' : (value = a) = False := by
      simp only [eq_iff_iff, iff_false]
      exact fun h => hav h.symm
    cases hva : cwLt value a with
    | true =>
      have hav' : cwLt a value = false := cwLt_asymm hva
      simp [inRange, ltCK, hva, hav', hne, hne', hav]
    | false =>
      simp [inRange, ltCK, hva, hne, hne', hav]

theorem pairLt_irrefl (a : CW × CW) : pairLt a a = false := by
  simp [pairLt, cwLt_irrefl]

theorem pairLt_trans {a b c : CW × CW} (h₁ : pairLt a b = true) (h₂ : pairLt b c = true) :
    pairLt a c = true := by
  simp only [pairLt, Bool.or_eq_true, Bool.and_eq_true, decide_eq_true_eq] at h₁ h₂ ⊢
  rcases h₁ with h₁ | ⟨e₁, h₁⟩
  · rcases h₂ with h₂ | ⟨e₂, h₂⟩
    · exact Or.inl (cwLt_trans h₁ h₂)
    · exact Or.inl (e₂ ▸ h₁)
  · rcases h₂ with h₂ | ⟨e₂, h₂⟩
    · exact Or.inl (e₁ ▸ h₂)
    · exact Or.inr ⟨e₁.trans e₂, cwLt_trans h₁ h₂⟩

theorem pairLt_conn {a b : CW × CW} (h₁ : pairLt a b = false) (h₂ : pairLt b a = false) :
    a = b := by
  obtain ⟨a₁, a₂⟩ := a
  obtain ⟨b₁, b₂⟩ := b
  simp only [pairLt, Bool.or_eq_false_iff, Bool.and_eq_false_iff,
    decide_eq_false_iff_not] at h₁ h₂
  obtain ⟨hl₁, h₁'⟩ := h₁
  obtain ⟨hl₂, h₂'⟩ := h₂
  have e₁ : a₁ = b₁ := cwLt_conn hl₁ hl₂
  subst e₁
  rcases h₁' with h₁' | h₁'
  · exact absurd rfl h₁'
  · rcases h₂' with h₂' | h₂'
    · exact absurd rfl h₂'
    · simp [cwLt_conn h₁' h₂']

theorem pairLt_ne {a b : CW × CW} (h : pairLt a b = true) : a ≠ b := by
  rintro rfl
  simp [pairLt_irrefl] at h

theorem mem_insertEntry {ns : List (CW × CW)} {e a : CW × CW} :
    a ∈ insertEntry ns e ↔ a ∈ ns ∨ a = e := by
  induction ns with
  | nil => simp [insertEntry]
  | cons x xs ih =>
    simp only [insertEntry]
    split
    · simp only [List.mem_cons]
      tauto
    · split
      · rename_i h₁ h₂
        subst h₂
        simp only [List.mem_cons]
        tauto
      · simp only [List.mem_cons, ih]
        tauto

theorem self_mem_insertEntry (ns : List (CW × CW)) (e : CW × CW) :
    e ∈ insertEntry ns e :=
  mem_insertEntry.mpr (Or.inr rfl)

theorem SortedNS.nodup {ns : List (CW × CW)} (h : SortedNS ns) : ns.Nodup :=
  h.imp (fun hab => pairLt_ne hab)

theorem SortedNS.insertEntry {ns : List (CW × CW)} (e : CW × CW) (h : SortedNS ns) :
    SortedNS (IndexedSublevel.insertEntry ns e) := by
  induction ns with
  | nil =>
    simp only [IndexedSublevel.insertEntry, SortedNS]
    exact List.pairwise_singleton _ _
  | cons x xs ih =>
    obtain ⟨hx, hxs⟩ := List.pairwise_cons.mp h
    simp only [IndexedSublevel.insertEntry, SortedNS]
    split
    · rename_i h₁
      refine List.pairwise_cons.mpr ⟨?_, h⟩
      intro a ha
      rcases List.mem_cons.mp ha with rfl | ha
      · exact h₁
      · exact pairLt_trans h₁ (hx a ha)
    · split
      · exact h
      · rename_i h₁ h₂
        refine List.pairwise_cons.mpr ⟨?_, ih hxs⟩
        intro a ha
        rcases mem_insertEntry.mp ha with ha | rfl
        · exact hx a ha
        · cases hpe : pairLt x a with
          | true => rfl
          | false =>
            cases hpe' : pairLt a x with
            | true => exact absurd hpe' h₁
            | false => exact absurd (pairLt_conn hpe' hpe) h₂

theorem SortedNS.removeEntry {ns : List (CW × CW)} (e : CW × CW) (h : SortedNS ns) :
    SortedNS (IndexedSublevel.removeEntry ns e) :=
  h.sublist (List.filter_sublist ns)

theorem mainLookup_erase_self {V : Type} (m : List (CW × V)) (k : CW) :
    mainLookup (mainErase m k) k = none := by
  induction m with
  | nil => rfl
  | cons p rest ih =>
    by_cases h : p.1 = k
    · simpa [mainErase, h] using ih
    · obtain ⟨k', v'⟩ := p
      simp only at h
      simpa [mainErase, mainLookup, h] using ih

theorem mainLookup_erase_ne {V : Type} (m : List (CW × V)) {k k' : CW} (h : k' ≠ k) :
    mainLookup (mainErase m k) k' = mainLookup m k' := by
  induction m with
  | nil => rfl
  | cons p rest ih =>
    obtain ⟨k₀, v₀⟩ := p
    by_cases h₀ : k₀ = k
    · subst h₀
      have : ¬ k₀ = k' := fun hh => h (hh ▸ rfl)
      simpa [mainErase, mainLookup, this] using ih
    · by_cases h₁ : k₀ = k'
      · subst h₁
        simp [mainErase, mainLookup, h]
      · simpa [mainErase, mainLookup, h₀, h₁] using ih

theorem mainLookup_insert_self {V : Type} (m : List (CW × V)) (k : CW) (v : V) :
    mainLookup (mainInsert m k v) k = some v := by
  simp [mainInsert, mainLookup]

theorem mainLookup_insert_ne {V : Type} (m : List (CW × V)) {k k' : CW} (v : V)
    (h : k' ≠ k) : mainLookup (mainInsert m k v) k' = mainLookup m k' := by
  have : ¬ k = k' := fun hh => h (hh ▸ rfl)
  simp [mainInsert, mainLookup, this, mainLookup_erase_ne m h]

theorem applyOp_registry {V : Type} (db : DB V) (op : Op V) :
    (applyOp db op).registry = db.registry := by
  cases op <;> rfl

theorem applyOps_registry {V : Type} (ops : List (Op V)) :
    ∀ db : DB V, (applyOps db ops).registry = db.registry := by
  induction ops with
  | nil => intro db; rfl
  | cons op rest ih =>
    intro db
    calc (applyOps (applyOp db op) rest).registry
        = (applyOp db op).registry := ih (applyOp db op)
      _ = db.registry := applyOp_registry db op

theorem put_registry {V : Type} (db : DB V) (k : CW) (v : V) :
    (put db k v).registry = db.registry :=
  applyOps_registry _ db

theorem applyOps_mkIdx_main {V : Type} (mk : String → CW × CW → Op V)
    (hmk : ∀ (db : DB V) (n : String) (e : CW × CW), (applyOp db (mk n e)).main = db.main)
    (k : CW) (f : (V → Option CW) → Option CW)
    (regs : List (String × (V → Option CW))) :
    ∀ db : DB V,
      (applyOps db (regs.filterMap (fun p => (f p.2).map (fun iv => mk p.1 (iv, k))))).main
        = db.main := by
  induction regs with
  | nil => intro db; rfl
  | cons p rest ih =>
    intro db
    cases hfv : f p.2 with
    | none =>
      simp only [List.filterMap_cons, hfv, Option.map_none']
      exact ih db
    | some iv =>
      simp only [List.filterMap_cons, hfv, Option.map_some']
      show (applyOps (applyOp db (mk p.1 (iv, k)))
        (rest.filterMap (fun p => (f p.2).map (fun iv => mk p.1 (iv, k))))).main = db.main
      rw [ih (applyOp db (mk p.1 (iv, k))), hmk]

theorem applyOps_mkIdx_idx_notmem {V : Type} (mk : String → CW × CW → Op V)
    (hmk : ∀ (db : DB V) (n : String) (e : CW × CW) (m : String), m ≠ n →
      (applyOp db (mk n e)).idx m = db.idx m)
    (k : CW) (f : (V → Option CW) → Option CW)
    (regs : List (String × (V → Option CW))) (name : String)
    (hname : name ∉ regs.map Prod.fst) :
    ∀ db : DB V,
      (applyOps db (regs.filterMap (fun p => (f p.2).map (fun iv => mk p.1 (iv, k))))).idx name
        = db.idx name := by
  induction regs with
  | nil => intro db; rfl
  | cons p rest ih =>
    have hne : name ≠ p.1 := by
      intro hh
      exact hname (by simp [hh])
    have hrest : name ∉ rest.map Prod.fst := by
      intro hh
      exact hname (by simp [hh])
    intro db
    cases hfv : f p.2 with
    | none =>
      simp only [List.filterMap_cons, hfv, Option.map_none']
      exact ih hrest db
    | some iv =>
      simp only [List.filterMap_cons, hfv, Option.map_some']
      show (applyOps (applyOp db (mk p.1 (iv, k)))
        (rest.filterMap (fun p => (f p.2).map (fun iv => mk p.1 (iv, k))))).idx name
        = db.idx name
      rw [ih hrest (applyOp db (mk p.1 (iv, k))), hmk _ _ _ _ hne]

theorem applyOps_mkIdx_idx_mem {V : Type} (mk : String → CW × CW → Op V)
    (act : List (CW × CW) → CW × CW → List (CW × CW))
    (hmk_ne : ∀ (db : DB V) (n : String) (e : CW × CW) (m : String), m ≠ n →
      (applyOp db (mk n e)).idx m = db.idx m)
    (hmk_eq : ∀ (db : DB V) (n : String) (e : CW × CW),
      (applyOp db (mk n e)).idx n = act (db.idx n) e)
    (k : CW) (f : (V → Option CW) → Option CW)
    (regs : List (String × (V → Option CW))) (name : String) (g : V → Option CW)
    (hnd : (regs.map Prod.fst).Nodup) (hmem : (name, g) ∈ regs) :
    ∀ db : DB V,
      (applyOps db (regs.filterMap (fun p => (f p.2).map (fun iv => mk p.1 (iv, k))))).idx name
        = match f g with
          | some iv => act (db.idx name) (iv, k)
          | none => db.idx name := by
  induction regs with
  | nil => exact absurd hmem (List.not_mem_nil _)
  | cons p rest ih =>
    have hsplit : p.1 ∉ rest.map Prod.fst ∧ (rest.map Prod.fst).Nodup := by
      rw [List.map_cons, List.nodup_cons] at hnd
      exact hnd
    have hnd' : (rest.map Prod.fst).Nodup := hsplit.2
    rcases List.mem_cons.mp hmem with hp | hp
    · subst hp
      have hrest : name ∉ rest.map Prod.fst := hsplit.1
      intro db
      cases hfv : f g with
      | none =>
        simp only [List.filterMap_cons, hfv, Option.map_none']
        exact applyOps_mkIdx_idx_notmem mk hmk_ne k f rest name hrest db
      | some iv =>
        simp only [List.filterMap_cons, hfv, Option.map_some']
        show (applyOps (applyOp db (mk name (iv, k)))
          (rest.filterMap (fun p => (f p.2).map (fun iv => mk p.1 (iv, k))))).idx name
          = act (db.idx name) (iv, k)
        rw [applyOps_mkIdx_idx_notmem mk hmk_ne k f rest name hrest,
          hmk_eq db name (iv, k)]
    · have hne : name ≠ p.1 := by
        intro hh
        exact hsplit.1 (hh ▸ List.mem_map.mpr ⟨(name, g), hp, rfl⟩)
      intro db
      cases hfv : f p.2 with
      | none =>
        simp only [List.filterMap_cons, hfv, Option.map_none']
        exact ih hnd' hp db
      | some iv =>
        simp only [List.filterMap_cons, hfv, Option.map_some']
        show (applyOps (applyOp db (mk p.1 (iv, k)))
          (rest.filterMap (fun p => (f p.2).map (fun iv => mk p.1 (iv, k))))).idx name
          = match f g with
            | some iv => act (db.idx name) (iv, k)
            | none => db.idx name
        rw [ih hnd' hp (applyOp db (mk p.1 (iv, k))), hmk_ne _ _ _ _ hne]

theorem put_main {V : Type} (db : DB V) (k : CW) (v : V) :
    (put db k v).main = mainInsert db.main k v := by
  show (applyOps (applyOp db (Op.putMain k v))
    (db.registry.filterMap (fun p => (p.2 v).map (fun iv => Op.putIdx p.1 (iv, k))))).main
    = mainInsert db.main k v
  rw [applyOps_mkIdx_main (V := V) Op.putIdx (fun _ _ _ => rfl) k (fun g => g v) db.registry]
  rfl

theorem put_idx {V : Type} (db : DB V) (k : CW) (v : V) (name : String) (g : V → Option CW)
    (hnd : (db.registry.map Prod.fst).Nodup) (hmem : (name, g) ∈ db.registry) :
    (put db k v).idx name
      = match g v with
        | some iv => insertEntry (db.idx name) (iv, k)
        | none => db.idx name := by
  show (applyOps (applyOp db (Op.putMain k v))
    (db.registry.filterMap (fun p => (p.2 v).map (fun iv => Op.putIdx p.1 (iv, k))))).idx name
    = _
  rw [applyOps_mkIdx_idx_mem (V := V) Op.putIdx insertEntry
    (by intro db' n e m hm; simp [applyOp, hm])
    (by intro db' n e; simp [applyOp])
    k (fun g => g v) db.registry name g hnd hmem]
  cases g v <;> rfl

theorem del_main_of_some {V : Type} (db : DB V) (k : CW) {v : V}
    (h : mainLookup db.main k = some v) :
    (del db k).main = mainErase db.main k := by
  unfold del
  rw [h]
  show (applyOps (applyOp db (Op.delMain k))
    (db.registry.filterMap (fun p => (p.2 v).map (fun iv => Op.delIdx p.1 (iv, k))))).main
    = mainErase db.main k
  rw [applyOps_mkIdx_main (V := V) Op.delIdx (fun _ _ _ => rfl) k (fun g => g v) db.registry]
  rfl

theorem findIndex_isSome_of_mem {V : Type} {regs : List (String × (V → Option CW))}
    {name : String} {g : V → Option CW} (hmem : (name, g) ∈ regs) :
    ∃ g', findIndex regs name = some g' := by
  induction regs with
  | nil => exact absurd hmem (List.not_mem_nil _)
  | cons p rest ih =>
    by_cases hp : p.1 = name
    · exact ⟨p.2, by simp [findIndex, hp]⟩
    · rcases List.mem_cons.mp hmem with hh | hh
      · exact absurd (by rw [← hh]) hp
      · obtain ⟨g', hg'⟩ := ih hh
        exact ⟨g', by simp [findIndex, hp, hg']⟩

theorem query_ok_mem {V : Type} {db : DB V} {name : String} {value : CW} {out : List V}
    (h : query db name value = Except.ok out) {r : V} (hr : r ∈ out) :
    ∃ k', mainLookup db.main k' = some r := by
  unfold query at h
  cases hfind : findIndex db.registry name with
  | none => rw [hfind] at h; exact absurd h (by simp)
  | some g =>
    rw [hfind] at h
    simp only [Except.ok.injEq] at h
    subst h
    obtain ⟨k', _, hk'⟩ := List.mem_filterMap.mp hr
    exact ⟨k', hk'⟩

theorem mem_idx_applyOps_of_isPut {V : Type} (ops : List (Op V))
    (h : ∀ op ∈ ops, op.isPut = true) :
    ∀ (db : DB V) (name : String) (e : CW × CW),
      e ∈ db.idx name → e ∈ (applyOps db ops).idx name := by
  induction ops with
  | nil => intro db name e he; exact he
  | cons op rest ih =>
    intro db name e he
    have hop := h op (List.mem_cons_self op rest)
    have hrest : ∀ o ∈ rest, o.isPut = true := fun o ho => h o (List.mem_cons_of_mem _ ho)
    refine ih hrest (applyOp db op) name e ?_
    cases op with
    | putMain k v => exact he
    | delMain k => exact absurd hop (by simp [Op.isPut])
    | delIdx n e' => exact absurd hop (by simp [Op.isPut])
    | putIdx n e' =>
      show e ∈ (if name = n then insertEntry (db.idx name) e' else db.idx name)
      split
      · exact mem_insertEntry.mpr (Or.inl he)
      · exact he

theorem putOps_isPut {V : Type} (regs : List (String × (V → Option CW))) (k : CW) (v : V) :
    ∀ op ∈ putOps regs k v, op.isPut = true := by
  intro op hop
  rcases List.mem_cons.mp hop with rfl | hop
  · rfl
  · obtain ⟨p, _, hp⟩ := List.mem_filterMap.mp hop
    cases hgv : p.2 v with
    | none => rw [hgv] at hp; exact absurd hp (by simp)
    | some iv =>
      rw [hgv] at hp
      simp only [Option.map_some', Option.some.injEq] at hp
      rw [← hp]
      rfl

theorem stagePutE_error {V : Type} {regs : List (String × (V → Except String (Option CW)))}
    {name : String} {gE : V → Except String (Option CW)} {v : V} {e : String}
    (hmem : (name, gE) ∈ regs) (herr : gE v = .error e) (k : CW) :
    ∃ e', stagePutE regs k v = .error e' := by
  induction regs with
  | nil => exact absurd hmem (List.not_mem_nil _)
  | cons p rest ih =>
    rcases List.mem_cons.mp hmem with hp | hp
    · subst hp
      exact ⟨e, by simp [stagePutE, herr]⟩
    · cases hpv : p.2 v with
      | error e₂ => exact ⟨e₂, by simp [stagePutE, hpv]⟩
      | ok o =>
        obtain ⟨e', he'⟩ := ih hp
        cases o with
        | none => exact ⟨e', by simp [stagePutE, hpv, he']⟩
        | some iv => exact ⟨e', by simp [stagePutE, hpv, he', Except.map]⟩

theorem applyOp_sortedNS {V : Type} (db : DB V) (op : Op V) (name : String)
    (h : SortedNS (db.idx name)) : SortedNS ((applyOp db op).idx name) := by
  cases op with
  | putMain k v => exact h
  | delMain k => exact h
  | putIdx n e =>
    show SortedNS (if name = n then insertEntry (db.idx name) e else db.idx name)
    split
    · exact h.insertEntry e
    · exact h
  | delIdx n e =>
    show SortedNS (if name = n then removeEntry (db.idx name) e else db.idx name)
    split
    · exact h.removeEntry e
    · exact h

theorem applyOps_sortedNS {V : Type} (ops : List (Op V)) (name : String) :
    ∀ db : DB V, SortedNS (db.idx name) → SortedNS ((applyOps db ops).idx name) := by
  induction ops with
  | nil => intro db h; exact h
  | cons op rest ih =>
    intro db h
    exact ih (applyOp db op) (applyOp_sortedNS db op name h)

/-- Every state reachable through completed writes keeps each index
namespace strictly sorted (and hence duplicate-free), as the underlying
ordered store does. -/
theorem reachable_sortedNS {V : Type} {regs : List (String × (V → Option CW))} {db : DB V}
    (h : Reachable regs db) (name : String) : SortedNS (db.idx name) := by
  induction h with
  | init => exact List.Pairwise.nil
  | put k v _ ih => exact applyOps_sortedNS _ name _ ih
  | del k hr ih =>
    rename_i db'
    show SortedNS ((del db' k).idx name)
    unfold del
    cases mainLookup db'.main k with
    | none => exact ih
    | some oldValue => exact applyOps_sortedNS _ name _ ih

/-- Completed writes never touch the registry built at construction. -/
theorem reachable_registry {V : Type} {regs : List (String × (V → Option CW))} {db : DB V}
    (h : Reachable regs db) : db.registry = regs := by
  induction h with
  | init => rfl
  | put k v _ ih => exact (applyOps_registry _ _).trans ih
  | del k hr ih =>
    rename_i db'
    show (del db' k).registry = regs
    unfold del
    cases mainLookup db'.main k with
    | none => exact ih
    | some oldValue => exact (applyOps_registry _ _).trans ih

/-- C1: the spec's collection invariant (exactly one index entry per
present key and defined getter, none otherwise) is violated by the code in
a state reachable with two completed puts: `put("k", 1)` then
`put("k", 2)` under an index mapping `1 ↦ "a"`, `2 ↦ "b"` leaves the stale
entry `("a", "k")` in the index namespace alongside `("b", "k")`, because
`IdexedSubLevel.put` never reads the old value and never stages a delete
of the previous composite key. -/
theorem C1_invariant_violated :
    Reachable regsStale dbStale ∧ ¬ C1Invariant dbStale := by
  constructor
  · exact Reachable.put _ _ (Reachable.put _ _ Reachable.init)
  · intro h
    have hm : mainLookup dbStale.main (.str "k") = some 2 := rfl
    have hp : ("i", gStale) ∈ dbStale.registry := by
      show ("i", gStale) ∈ regsStale
      exact List.mem_singleton.mpr rfl
    have h2 := h (.str "k") 2 hm ("i", gStale) hp
    have h2' : (dbStale.idx "i").filter (fun e => decide (e.2 = CW.str "k"))
        = [(CW.str "b", CW.str "k")] := h2
    exact absurd h2' (by decide)

/-- C2: after `put("k", 1)` then `put("k", 2)` with index values `"a"` and
`"b"` respectively, the claim says `query("i", "a")` no longer contains
the record stored at `"k"`; the code instead still returns that record
(now `2`) through the stale entry `("a", "k")`. -/
theorem C2_stale_query_returns_record :
    mainLookup dbStale.main (.str "k") = some 2 ∧
    dbStale.idx "i" = [(.str "a", .str "k"), (.str "b", .str "k")] ∧
    query dbStale "i" (.str "a") = Except.ok [2] :=
  ⟨rfl, rfl, rfl⟩

/-- C4: after deleting a present key, the key reads as absent and no query
on any index and any value returns a record referencing the deleted key:
every returned record is the current record of some other present key. -/
theorem C4_delete_removes_record {V : Type} (db : DB V) (k : CW) {v : V}
    (h : mainLookup db.main k = some v) :
    mainLookup (del db k).main k = none ∧
    ∀ name value out r, query (del db k) name value = Except.ok out → r ∈ out →
      ∃ k', k' ≠ k ∧ mainLookup (del db k).main k' = some r := by
  have hmain : (del db k).main = mainErase db.main k := del_main_of_some db k h
  have h1 : mainLookup (del db k).main k = none := by
    rw [hmain]
    exact mainLookup_erase_self db.main k
  refine ⟨h1, ?_⟩
  intro name value out r hq hr
  obtain ⟨k', hk'⟩ := query_ok_mem hq hr
  refine ⟨k', ?_, hk'⟩
  intro hkk
  rw [hkk, h1] at hk'
  exact Option.noConfusion hk'

/-- Witness for C4 at a concrete input: `put("k", 5)` on a fresh store,
then `delete("k")`. -/
theorem C4_delete_removes_record_witness :
    mainLookup (put (initDB regsA) (.str "k") (5 : Int)).main (.str "k") = some 5 ∧
    (mainLookup (del (put (initDB regsA) (.str "k") (5 : Int)) (.str "k")).main (.str "k")
        = none ∧
      ∀ name value out r,
        query (del (put (initDB regsA) (.str "k") (5 : Int)) (.str "k")) name value
            = Except.ok out →
        r ∈ out →
        ∃ k', k' ≠ .str "k" ∧
          mainLookup (del (put (initDB regsA) (.str "k") (5 : Int)) (.str "k")).main k'
            = some r) :=
  ⟨rfl, C4_delete_removes_record (put (initDB regsA) (.str "k") (5 : Int)) (.str "k") rfl⟩

/-- C5: the claim says the scan's upper bound `(value, MAX)` uses a
sentinel sorting strictly after every real primary key; the code's fixed
constant `"￿"` does not: storing a record under the primary key `"￿"`
itself creates the index entry `("a", "￿")`, which is not strictly below
the bound `("a", "￿")`, so the query misses the present record. -/
theorem C5_sentinel_not_maximal :
    mainLookup dbHigh.main (.str "￿") = some 7 ∧
    dbHigh.idx "i" = [(.str "a", .str "￿")] ∧
    query dbHigh "i" (.str "a") = Except.ok [] :=
  ⟨rfl, rfl, rfl⟩

/-- C7: deleting an absent key returns successfully and leaves the whole
state (primary namespace and every index namespace) unchanged — the code
returns before creating a batch. -/
theorem C7_delete_absent_noop {V : Type} (db : DB V) (k : CW)
    (h : mainLookup db.main k = none) : del db k = db := by
  unfold del
  rw [h]

/-- Witness for C7 at a concrete input: a fresh store and the absent key
`"x"`. -/
theorem C7_delete_absent_noop_witness :
    mainLookup (initDB regsA).main (.str "x") = none ∧
    del (initDB regsA) (.str "x") = initDB regsA :=
  ⟨rfl, C7_delete_absent_noop (initDB regsA) (.str "x") rfl⟩

/-- C8: querying an unregistered index name fails with the index-not-found
error, and querying a registered name never raises it; `query` is
read-only by construction (it returns a value and never produces a new
state). -/
theorem C8_index_not_found {V : Type} (db : DB V) (name : String) (value : CW) :
    (findIndex db.registry name = none →
      query db name value = Except.error (QueryError.indexNotFound name)) ∧
    (∀ g, findIndex db.registry name = some g → ∃ out, query db name value = Except.ok out) := by
  constructor
  · intro h
    unfold query
    rw [h]
  · intro g h
    unfold query
    rw [h]
    exact ⟨_, rfl⟩

/-- Witness for C8 at concrete inputs: the unregistered name `"nope"`
fails, the registered name `"i"` succeeds. -/
theorem C8_index_not_found_witness :
    query (initDB regsA) "nope" (.str "a") = Except.error (QueryError.indexNotFound "nope") ∧
    ∃ out, query (initDB regsA) "i" (.str "a") = Except.ok out :=
  ⟨(C8_index_not_found (initDB regsA) "nope" (.str "a")).1 rfl,
    (C8_index_not_found (initDB regsA) "i" (.str "a")).2 gA rfl⟩

/-- C9: when a registered index getter throws during `put`, the call
surfaces a failure and the batch is never committed: `putE` returns an
error and produces no new state, leaving the store exactly as before the
call. -/
theorem C9_getter_failure_aborts {V : Type} (db : DBE V) (k : CW) (v : V)
    (name : String) (gE : V → Except String (Option CW)) (e : String)
    (hmem : (name, gE) ∈ db.registryE) (herr : gE v = .error e) :
    ∃ e', putE db k v = Except.error e' := by
  obtain ⟨e', he'⟩ := stagePutE_error hmem herr k
  refine ⟨e', ?_⟩
  unfold putE
  rw [he']

/-- Witness for C9 at a concrete input: the index `"i"` whose getter
always throws `"boom"`. -/
theorem C9_getter_failure_aborts_witness :
    gBoom 3 = Except.error "boom" ∧
    ∃ e', putE dbBoom (.str "k") 3 = Except.error e' :=
  ⟨rfl, C9_getter_failure_aborts dbBoom (.str "k") 3 "i" gBoom "boom"
    (List.mem_singleton.mpr rfl) rfl⟩

/-- C10: every operation staged by `put` is a put (never a delete), so
every index entry present before the call — in particular every entry
whose composite key differs from the freshly written `(getter value, key)`
pairs — is still present after the call. -/
theorem C10_put_stages_only_puts {V : Type} (db : DB V) (k : CW) (v : V)
    (name : String) (e : CW × CW) (he : e ∈ db.idx name)
    (_hdiff : ∀ g, (name, g) ∈ db.registry →
      (g v).map (fun iv => ((iv, k) : CW × CW)) ≠ some e) :
    (∀ op ∈ putOps db.registry k v, op.isPut = true) ∧ e ∈ (put db k v).idx name := by
  have hput := putOps_isPut db.registry k v
  exact ⟨hput, mem_idx_applyOps_of_isPut _ hput db name e he⟩

/-- Witness for C10 at a concrete input: the entry `("a", "k")` written by
`put("k", 1)` survives the later `put("k", 3)`, whose own index entry is
`("b", "k")`. -/
theorem C10_put_stages_only_puts_witness :
    ((.str "a", .str "k") ∈ dbStale.idx "i") ∧
    ((∀ op ∈ putOps dbStale.registry (.str "k") (3 : Int), op.isPut = true) ∧
      (.str "a", .str "k") ∈ (put dbStale (.str "k") (3 : Int)).idx "i") := by
  refine ⟨by decide, C10_put_stages_only_puts dbStale (.str "k") 3 "i" (.str "a", .str "k")
    (by decide) ?_⟩
  intro g hg
  have hg' : ("i", g) ∈ regsStale := hg
  have : g = gStale := by
    rcases List.mem_singleton.mp hg' with h
    exact congrArg Prod.snd h
  subst this
  decide

theorem countP_eq_one_of_nodup_mem {α : Type} [DecidableEq α] {l : List α} {x : α}
    (hnd : l.Nodup) (hx : x ∈ l) : l.countP (fun e => decide (e = x)) = 1 := by
  induction l with
  | nil => exact absurd hx (List.not_mem_nil x)
  | cons a rest ih =>
    obtain ⟨ha, hrest⟩ := List.nodup_cons.mp hnd
    rcases List.mem_cons.mp hx with rfl | hx'
    · rw [List.countP_cons]
      have hz : rest.countP (fun e => decide (e = x)) = 0 := by
        rw [List.countP_eq_zero]
        intro e he
        simp only [decide_eq_true_eq]
        rintro rfl
        exact ha he
      simp [hz]
    · rw [List.countP_cons]
      have hax : ¬ a = x := by
        rintro rfl
        exact ha hx'
      simp [ih hrest hx', hax]

/-- C3 is refuted as stated: in the store reached by `put("k2", 5)` then
`put("k1", 5)`, the trailing `put("k1", 5)` succeeds and `get("k1") = 5`,
but `query("i", "a")` returns the record `5` twice (once per present key
holding it), not exactly once. -/
theorem C3_exactly_once_counterexample :
    mainLookup dbDup.main (.str "k1") = some 5 ∧
    query dbDup "i" (.str "a") = Except.ok [5, 5] ∧
    ¬ ∃ out, query dbDup "i" (.str "a") = Except.ok out ∧ out.count (5 : Int) = 1 := by
  refine ⟨rfl, rfl, ?_⟩
  rintro ⟨out, hq, hc⟩
  have h55 : query dbDup "i" (.str "a") = Except.ok [5, 5] := rfl
  rw [hq] at h55
  rw [Except.ok.inj h55] at hc
  exact absurd hc (by decide)

/-- C3 (amended): after `put(k, v)` succeeds, `get(k)` returns `v`; and
for a registered index whose getter is defined on `v`, the query for the
derived index value contains `v` exactly once — provided the primary key
sorts strictly below the code's fixed scan bound `"￿"` and no other
currently-present key holds a record equal to `v` (when several present
keys hold equal records the query returns one copy per key, and a key not
below the bound is missed by the scan altogether). -/
theorem C3_put_get_query_amended {V : Type} [DecidableEq V] (db : DB V) (k : CW) (v : V)
    (name : String) (g : V → Option CW) (iv : CW)
    (hnd : (db.registry.map Prod.fst).Nodup)
    (hsorted : SortedNS (db.idx name))
    (hmem : (name, g) ∈ db.registry)
    (hg : g v = some iv)
    (hk : cwLt k sentinel = true)
    (hother : ∀ k' v', k' ≠ k → mainLookup db.main k' = some v' → v' ≠ v) :
    mainLookup (put db k v).main k = some v ∧
    ∃ out, query (put db k v) name iv = Except.ok out ∧ out.count v = 1 := by
  have hmain : (put db k v).main = mainInsert db.main k v := put_main db k v
  have hreg : (put db k v).registry = db.registry := put_registry db k v
  have hidx : (put db k v).idx name = insertEntry (db.idx name) (iv, k) := by
    rw [put_idx db k v name g hnd hmem, hg]
  obtain ⟨g', hfind⟩ := findIndex_isSome_of_mem hmem
  refine ⟨by rw [hmain]; exact mainLookup_insert_self db.main k v, ?_⟩
  have hq : query (put db k v) name iv
      = Except.ok ((((insertEntry (db.idx name) (iv, k)).filter
          (fun e => inRange iv e)).map (fun e => e.2)).filterMap
          (fun k' => mainLookup (mainInsert db.main k v) k')) := by
    unfold query
    rw [hreg, hfind, hidx, hmain]
  refine ⟨_, hq, ?_⟩
  rw [List.count_filterMap, List.countP_map, List.countP_filter]
  have hpoint : ∀ e ∈ insertEntry (db.idx name) (iv, k),
      ((((fun k' => mainLookup (mainInsert db.main k v) k' == some v) ∘
          (fun e : CW × CW => e.2)) e && inRange iv e) = true)
        ↔ ((fun e => decide (e = (iv, k))) e = true) := by
    intro e he
    simp only [Function.comp_apply, Bool.and_eq_true, beq_iff_eq, decide_eq_true_eq]
    constructor
    · rintro ⟨hlk, hin⟩
      obtain ⟨hfst, _⟩ := (inRange_iff iv e).mp hin
      by_cases hek : e.2 = k
      · obtain ⟨e1, e2⟩ := e
        simp only at hfst hek
        rw [hfst, hek]
      · rw [mainLookup_insert_ne db.main v hek] at hlk
        exact absurd rfl (hother e.2 v hek hlk)
    · rintro rfl
      exact ⟨mainLookup_insert_self db.main k v, (inRange_iff iv (iv, k)).mpr ⟨rfl, hk⟩⟩
  rw [List.countP_congr hpoint]
  exact countP_eq_one_of_nodup_mem (hsorted.insertEntry (iv, k)).nodup
    (self_mem_insertEntry (db.idx name) (iv, k))

/-- Witness for the amended C3 at a concrete input: `put("k1", 5)` on a
fresh store with the single index `"i"`. -/
theorem C3_put_get_query_amended_witness :
    mainLookup (put (initDB regsA) (.str "k1") (5 : Int)).main (.str "k1") = some 5 ∧
    ∃ out, query (put (initDB regsA) (.str "k1") (5 : Int)) "i" (.str "a") = Except.ok out ∧
      out.count (5 : Int) = 1 :=
  C3_put_get_query_amended (initDB regsA) (.str "k1") (5 : Int) "i" gA (.str "a")
    (by decide) List.Pairwise.nil (List.mem_singleton.mpr rfl) rfl rfl
    (fun _ _ _ hl => Option.noConfusion hl)

/-- C6: with one record indexed under `"a"` and another, stored by a
different primary key, indexed under `"ab"`, querying `"a"` returns only
the record indexed under `"a"`: the composite-key range compares the index
value as a whole component, so `"ab"` never falls inside `"a"`'s range. -/
theorem C6_prefix_safety {V : Type} (g : V → Option CW) (k1 k2 : CW) (v1 v2 : V)
    (hk : k1 ≠ k2) (h1 : g v1 = some (.str "a")) (h2 : g v2 = some (.str "ab"))
    (hs : cwLt k1 sentinel = true) :
    query (put (put (initDB [("i", g)]) k1 v1) k2 v2) "i" (.str "a") = Except.ok [v1] := by
  have hreg1 : (put (initDB [("i", g)]) k1 v1).registry = [("i", g)] := put_registry _ _ _
  have hidx1 : (put (initDB [("i", g)]) k1 v1).idx "i" = [(.str "a", k1)] := by
    rw [put_idx (initDB [("i", g)]) k1 v1 "i" g (by simp [initDB]) (List.mem_singleton.mpr rfl), h1]
    rfl
  have hmain1 : (put (initDB [("i", g)]) k1 v1).main = [(k1, v1)] := by
    rw [put_main]
    rfl
  have hnd1 : ((put (initDB [("i", g)]) k1 v1).registry.map Prod.fst).Nodup := by
    rw [hreg1]
    simp
  have hmem1 : ("i", g) ∈ (put (initDB [("i", g)]) k1 v1).registry := by
    rw [hreg1]
    exact List.mem_singleton.mpr rfl
  have hreg2 : (put (put (initDB [("i", g)]) k1 v1) k2 v2).registry = [("i", g)] := by
    rw [put_registry, hreg1]
  have hplt : pairLt (.str "ab", k2) (.str "a", k1) = false := by
    simp [pairLt, cwLt, strLt]
  have hidx2 : (put (put (initDB [("i", g)]) k1 v1) k2 v2).idx "i"
      = [(.str "a", k1), (.str "ab", k2)] := by
    rw [put_idx _ k2 v2 "i" g hnd1 hmem1, h2, hidx1]
    simp [insertEntry, hplt]
  have hmain2 : (put (put (initDB [("i", g)]) k1 v1) k2 v2).main = [(k2, v2), (k1, v1)] := by
    rw [put_main, hmain1]
    simp [mainInsert, mainErase, hk]
  have hfind : findIndex (put (put (initDB [("i", g)]) k1 v1) k2 v2).registry "i" = some g := by
    rw [hreg2]
    rfl
  have hin1 : inRange (.str "a") (.str "a", k1) = true := (inRange_iff _ _).mpr ⟨rfl, hs⟩
  have hin2 : inRange (.str "a") (.str "ab", k2) = false := by
    cases hir : inRange (.str "a") (.str "ab", k2) with
    | false => rfl
    | true =>
      obtain ⟨hfst, -⟩ := (inRange_iff _ _).mp hir
      have hcontra : CW.str "ab" = CW.str "a" := hfst
      exact absurd hcontra (by decide)
  have hlk : mainLookup [(k2, v2), (k1, v1)] k1 = some v1 := by
    simp [mainLookup, Ne.symm hk]
  unfold query
  rw [hfind, hidx2, hmain2]
  simp [List.filter, hin1, hin2, hlk]

/-- Witness for C6 at a concrete input: records `1` (indexed under `"a"`)
and `2` (indexed under `"ab"`) stored by `"k1"` and `"k2"`. -/
theorem C6_prefix_safety_witness :
    (CW.str "k1" ≠ CW.str "k2") ∧
    query (put (put (initDB [("i", gPS)]) (.str "k1") (1 : Int)) (.str "k2") 2) "i"
      (.str "a") = Except.ok [1] :=
  ⟨by decide, C6_prefix_safety gPS (.str "k1") (.str "k2") 1 2 (by decide) rfl rfl rfl⟩

end IndexedSublevel

